import Mathlib

/-!
Verification development for `src/supersenseFeatureExtractor.py`.

The Python module is embedded shallowly: each class/function of the source is
translated to a Lean definition operating on explicit state.  Python dicts are
modelled as functions into `Option` or as association lists, Python exceptions
as `Except String`, and Python integers as `Int`/`Nat`.
-/

set_option maxRecDepth 8000
set_option linter.unusedSectionVars false
set_option linter.unusedVariables false

/-! ## Trie (class `Trie`)

`_map` maps sequence items to child tries, `_vals` maps items ending a
sequence to their values.  Both dicts are modelled as functions into `Option`.
-/

inductive Trie (α β : Type) : Type where
  | node (map : α → Option (Trie α β)) (vals : α → Option β)

namespace Trie

variable {α β : Type}

def childMap : Trie α β → α → Option (Trie α β)
  | node m _ => m

def valMap : Trie α β → α → Option β
  | node _ v => v

/-- `Trie.__init__`: both dicts start empty. -/
def empty : Trie α β := node (fun _ => none) (fun _ => none)

/-- `Trie.__setitem__`.  Python raises `IndexError` on an empty key
(`seq[0]`); all insertions in this development use nonempty keys, and the
empty-key case leaves the trie unchanged. -/
def insert [DecidableEq α] : Trie α β → List α → β → Trie α β
  | t, [], _ => t
  | node m vals, [first], v => node m (fun x => if x = first then some v else vals x)
  | node m vals, first :: rest₀ :: rest₁, v =>
      let child := (m first).getD Trie.empty
      node (fun x => if x = first then some (child.insert (rest₀ :: rest₁) v) else m x) vals

/-- `Trie.__contains__` (empty key: Python raises `IndexError`, modelled as `false`). -/
def containsKey [DecidableEq α] : Trie α β → List α → Bool
  | _, [] => false
  | node _ vals, [first] => (vals first).isSome
  | node m _, first :: rest₀ :: rest₁ =>
      match m first with
      | none => false
      | some child => child.containsKey (rest₀ :: rest₁)

/-- `Trie.get`.  Every call site in the source uses the default `None`
(the recursive call even drops a caller-supplied default), so the default is
fixed to `none` here. -/
def get [DecidableEq α] : Trie α β → List α → Option β
  | _, [] => none
  | node _ vals, [first] => vals first
  | node m _, first :: rest₀ :: rest₁ =>
      match m first with
      | none => none
      | some child => child.get (rest₀ :: rest₁)

/-- `Trie.longest` with the default `None` (all call sites in the source use
the default).  `longer` is the recursive attempt on the tail (taken only when
the tail is nonempty and a child exists); when it yields no match the current
item's terminal value (if any) becomes a length-1 match. -/
def longest [DecidableEq α] : Trie α β → List α → Option (List α × β)
  | _, [] => none
  | node _ vals, [first] =>
      match vals first with
      | some v => some ([first], v)
      | none => none
  | node m vals, first :: rest₀ :: rest₁ =>
      match m first with
      | none =>
          match vals first with
          | some v => some ([first], v)
          | none => none
      | some child =>
          match child.longest (rest₀ :: rest₁) with
          | some (p, v) => some (first :: p, v)
          | none =>
              match vals first with
              | some v => some ([first], v)
              | none => none

theorem get_empty [DecidableEq α] (seq : List α) : (Trie.empty (β := β)).get seq = none := by
  rcases seq with _ | ⟨a, _ | ⟨b, r⟩⟩ <;> rfl

theorem get_insert_self [DecidableEq α] (K : List α) (v : β) :
    ∀ t : Trie α β, K ≠ [] → (t.insert K v).get K = some v := by
  induction K with
  | nil => intro t h; exact absurd rfl h
  | cons a K ih =>
    intro t _
    rcases t with ⟨m, vals⟩
    rcases K with _ | ⟨b, K⟩
    · simp [Trie.insert, Trie.get]
    · have step : ((Trie.node m vals).insert (a :: b :: K) v).get (a :: b :: K)
          = (((m a).getD Trie.empty).insert (b :: K) v).get (b :: K) := by
        simp [Trie.insert, Trie.get]
      rw [step]
      exact ih _ (by simp)

theorem get_insert_ne [DecidableEq α] (P : List α) (v : β) :
    ∀ (K : List α) (t : Trie α β), K ≠ [] → P ≠ [] → P ≠ K →
      (t.insert K v).get P = t.get P := by
  induction P with
  | nil => intro K t _ h _; exact absurd rfl h
  | cons c P ih =>
    intro K t hK _ hne
    rcases t with ⟨m, vals⟩
    rcases K with _ | ⟨a, K⟩
    · exact absurd rfl hK
    · rcases P with _ | ⟨c₁, P⟩
      · -- P = [c]
        rcases K with _ | ⟨b, K⟩
        · -- K = [a], singleton vs singleton: c ≠ a
          have hca : c ≠ a := by intro h; exact hne (by rw [h])
          simp [Trie.insert, Trie.get, if_neg hca]
        · -- K has length ≥ 2: only the child map is touched
          simp [Trie.insert, Trie.get]
      · -- P has length ≥ 2
        rcases K with _ | ⟨b, K⟩
        · -- K = [a]: only vals is touched
          simp [Trie.insert, Trie.get]
        · -- K has length ≥ 2
          by_cases hca : c = a
          · subst hca
            have hPK : (c₁ :: P) ≠ (b :: K) := by
              intro h; exact hne (by rw [h])
            have step : ((Trie.node m vals).insert (c :: b :: K) v).get (c :: c₁ :: P)
                = (((m c).getD Trie.empty).insert (b :: K) v).get (c₁ :: P) := by
              simp [Trie.insert, Trie.get]
            rw [step, ih (b :: K) _ (by simp) (by simp) hPK]
            rcases hm : m c with _ | child
            · simpa [Trie.get, hm] using get_empty (β := β) (c₁ :: P)
            · simp [Trie.get, hm]
          · simp [Trie.insert, Trie.get, if_neg hca]

theorem longest_sound [DecidableEq α] (S : List α) :
    ∀ (t : Trie α β) (q : List α) (w : β), t.longest S = some (q, w) →
      q ≠ [] ∧ q <+: S ∧ t.get q = some w := by
  induction S with
  | nil => intro t q w h; simp [Trie.longest] at h
  | cons a rest ih =>
    intro t q w h
    rcases t with ⟨m, vals⟩
    rcases rest with _ | ⟨b, r⟩
    · simp only [Trie.longest] at h
      rcases hv : vals a with _ | v <;> rw [hv] at h <;> dsimp only at h
      · exact absurd h (by simp)
      · simp only [Option.some.injEq, Prod.mk.injEq] at h
        obtain ⟨h1, h2⟩ := h
        subst h1; subst h2
        exact ⟨by simp, ⟨[], rfl⟩, by simp [Trie.get, hv]⟩
    · simp only [Trie.longest] at h
      rcases hm : m a with _ | child <;> rw [hm] at h <;> dsimp only at h
      · rcases hv : vals a with _ | v <;> rw [hv] at h <;> dsimp only at h
        · exact absurd h (by simp)
        · simp only [Option.some.injEq, Prod.mk.injEq] at h
          obtain ⟨h1, h2⟩ := h
          subst h1; subst h2
          exact ⟨by simp, ⟨b :: r, rfl⟩, by simp [Trie.get, hv]⟩
      · rcases hl : child.longest (b :: r) with _ | ⟨p, v⟩ <;> rw [hl] at h <;> dsimp only at h
        · rcases hv : vals a with _ | v <;> rw [hv] at h <;> dsimp only at h
          · exact absurd h (by simp)
          · simp only [Option.some.injEq, Prod.mk.injEq] at h
            obtain ⟨h1, h2⟩ := h
            subst h1; subst h2
            exact ⟨by simp, ⟨b :: r, rfl⟩, by simp [Trie.get, hv]⟩
        · simp only [Option.some.injEq, Prod.mk.injEq] at h
          obtain ⟨h1, h2⟩ := h
          subst h1; subst h2
          obtain ⟨hp, hpre, hget⟩ := ih child p v hl
          refine ⟨by simp, ?_, ?_⟩
          · obtain ⟨u, hu⟩ := hpre
            exact ⟨u, by rw [List.cons_append, hu]⟩
          · rcases p with _ | ⟨p0, p1⟩
            · exact absurd rfl hp
            · simpa [Trie.get, hm] using hget

theorem longest_complete [DecidableEq α] (S : List α) :
    ∀ (P : List α) (t : Trie α β) (v : β), P ≠ [] → P <+: S → t.get P = some v →
      ∃ q w, t.longest S = some (q, w) ∧ P.length ≤ q.length := by
  induction S with
  | nil =>
    intro P t v hP hpre _
    obtain ⟨u, hu⟩ := hpre
    exact absurd (List.append_eq_nil.mp hu).1 hP
  | cons a rest ih =>
    intro P t v hP hpre hget
    rcases t with ⟨m, vals⟩
    rcases P with _ | ⟨p0, P⟩
    · exact absurd rfl hP
    · have hp0 : p0 = a := by
        obtain ⟨u, hu⟩ := hpre
        injection hu with h1 _
      subst hp0
      have hPrest : P <+: rest := by
        obtain ⟨u, hu⟩ := hpre
        injection hu with _ h2
        exact ⟨u, h2⟩
      rcases P with _ | ⟨p1, P⟩
      · -- P = [p0]: get hits vals p0
        rcases rest with _ | ⟨r₀, r₁⟩
        · have hv : vals p0 = some v := hget
          exact ⟨[p0], v, by simp [Trie.longest, hv], by simp⟩
        · have hv : vals p0 = some v := hget
          rcases hm : m p0 with _ | child
          · exact ⟨[p0], v, by simp [Trie.longest, hm, hv], by simp⟩
          · rcases hl : child.longest (r₀ :: r₁) with _ | ⟨p, w⟩
            · exact ⟨[p0], v, by simp [Trie.longest, hm, hl, hv], by simp⟩
            · exact ⟨p0 :: p, w, by simp [Trie.longest, hm, hl], by simp⟩
      · -- P = p0 :: p1 :: P
        have hrest : ∃ r₀ r₁, rest = r₀ :: r₁ := by
          rcases rest with _ | ⟨r₀, r₁⟩
          · obtain ⟨u, hu⟩ := hPrest
            exact absurd (List.append_eq_nil.mp hu).1 (by simp)
          · exact ⟨r₀, r₁, rfl⟩
        obtain ⟨r₀, r₁, hr⟩ := hrest
        subst hr
        rcases hm : m p0 with _ | child
        · simp [Trie.get, hm] at hget
        · have hget' : child.get (p1 :: P) = some v := by
            simpa [Trie.get, hm] using hget
          obtain ⟨q', w', hl, hlen⟩ := ih (p1 :: P) child v (by simp) hPrest hget'
          refine ⟨p0 :: q', w', ?_, ?_⟩
          · simp [Trie.longest, hm, hl]
          · simpa using Nat.succ_le_succ hlen

theorem get_foldl_insert [DecidableEq α] (pairs : List (List α × β)) :
    ∀ (t₀ : Trie α β) (q : List α) (w : β), q ≠ [] →
      (pairs.foldl (fun t kv => t.insert kv.1 kv.2) t₀).get q = some w →
      t₀.get q = some w ∨ ∃ kv ∈ pairs, kv.1 = q := by
  induction pairs with
  | nil => intro t₀ q w _ h; exact Or.inl h
  | cons kv pairs ih =>
    intro t₀ q w hq h
    rcases ih (t₀.insert kv.1 kv.2) q w hq h with h' | ⟨kv', hmem, hkey⟩
    · by_cases hkq : kv.1 = q
      · exact Or.inr ⟨kv, by simp, hkq⟩
      · rcases hK : kv.1 with _ | ⟨k0, ks⟩
        · rw [hK] at h'
          exact Or.inl (by simpa [Trie.insert] using h')
        · rw [get_insert_ne q kv.2 kv.1 t₀ (by rw [hK]; simp) hq
            (fun hh => hkq hh.symm)] at h'
          exact Or.inl h'
    · exact Or.inr ⟨kv', by simp [hmem], hkey⟩

end Trie

/-! ## Claim C3: longest-prefix correctness of `Trie.longest` -/

/-- C3: in a trie in which key `K1` was inserted and then a strictly longer
key `K2` extending it was inserted, with both prefixes of a sequence `S`,
`Trie.longest S` returns the pair `(K2, value stored for K2)`, not `K1`'s
value; and for a sequence none of whose non-empty prefixes was ever inserted,
`Trie.longest` returns the default (`none`, i.e. "no match"). -/
theorem trie_longest_strict_and_no_match :
    (∀ {α β : Type} [DecidableEq α] (K1 K2 S : List α) (v1 v2 : β),
        K1 ≠ [] → K1 <+: K2 → K1 ≠ K2 → K2 <+: S →
        ((Trie.empty.insert K1 v1).insert K2 v2).longest S = some (K2, v2)) ∧
    (∀ {α β : Type} [DecidableEq α] (pairs : List (List α × β)) (S : List α),
        (∀ kv ∈ pairs, ¬ kv.1 <+: S) →
        (pairs.foldl (fun t kv => t.insert kv.1 kv.2) Trie.empty).longest S = none) := by
  constructor
  · intro α β _ K1 K2 S v1 v2 h1ne h12 hne h2S
    have h2ne : K2 ≠ [] := by
      intro h; subst h
      obtain ⟨u, hu⟩ := h12
      exact h1ne (List.append_eq_nil.mp hu).1
    have hlt : K1.length < K2.length := by
      rcases Nat.lt_or_ge K1.length K2.length with h | h
      · exact h
      · have heq : K1 = K2 := h12.eq_of_length (Nat.le_antisymm h12.length_le h)
        exact absurd heq hne
    have hget2 : ((Trie.empty.insert K1 v1).insert K2 v2).get K2 = some v2 :=
      Trie.get_insert_self K2 v2 _ h2ne
    obtain ⟨q, w, hl, hlen⟩ :=
      Trie.longest_complete S K2 ((Trie.empty.insert K1 v1).insert K2 v2) v2 h2ne h2S hget2
    obtain ⟨hqne, _, hgetq⟩ := Trie.longest_sound S _ q w hl
    by_cases hqK2 : q = K2
    · subst hqK2
      rw [hget2] at hgetq
      have : v2 = w := by injection hgetq
      rw [hl, this]
    · rw [Trie.get_insert_ne q v2 K2 _ h2ne hqne hqK2] at hgetq
      by_cases hqK1 : q = K1
      · subst hqK1
        omega
      · rw [Trie.get_insert_ne q v1 K1 _ h1ne hqne hqK1] at hgetq
        rw [Trie.get_empty] at hgetq
        exact absurd hgetq (by simp)
  · intro α β _ pairs S hno
    rcases hres : (pairs.foldl (fun t kv => t.insert kv.1 kv.2) Trie.empty).longest S
      with _ | ⟨q, w⟩
    · exact hres
    · obtain ⟨hqne, hqS, hgetq⟩ := Trie.longest_sound S _ q w hres
      rcases Trie.get_foldl_insert pairs Trie.empty q w hqne hgetq with h | ⟨kv, hmem, hkey⟩
      · rw [Trie.get_empty] at h
        exact absurd h (by simp)
      · exact absurd (hkey ▸ hqS) (hno kv hmem)

theorem trie_longest_strict_and_no_match_witness :
    ((Trie.empty.insert [1] 10).insert [1, 2] 20).longest [1, 2, 3] = some ([1, 2], 20) ∧
    ([([5], (1 : Nat))].foldl (fun t kv => t.insert kv.1 kv.2) Trie.empty).longest [1, 2]
      = none := by
  constructor
  · exact trie_longest_strict_and_no_match.1 [1] [1, 2] [1, 2, 3] 10 20 (by decide)
      ⟨[2], rfl⟩ (by decide) ⟨[3], rfl⟩
  · refine trie_longest_strict_and_no_match.2 [([5], 1)] [1, 2] ?_
    intro kv hkv
    simp only [List.mem_singleton] at hkv
    subst hkv
    rintro ⟨t, ht⟩
    have h5 : (5 : Nat) = 1 := by injection ht
    exact absurd h5 (by decide)

/-! ## Long-range POS-neighbor distance bucketing (`extractFeatureValues`) -/

/-- The distance bucketing applied to `bindist = k - j` in the POS-neighbor
feature template (identical in the left-neighbor and right-neighbor copies):
`if abs(bindist)>5: if abs(bindist)<10: bindist = 6 if bindist>0 else -6;
else: bindist //= 10; bindist *= 10`.  Python `//` is floor division, i.e.
`Int.fdiv`. -/
def bucketDist (bindist : Int) : Int :=
  if 5 < bindist.natAbs then
    if bindist.natAbs < 10 then (if 0 < bindist then 6 else -6)
    else (Int.fdiv bindist 10) * 10
  else bindist

/-- `cpos in sentpos[:j]` followed by `k = sentpos.rindex(cpos, 0, j)`: the
last position strictly before `j` holding `cpos`, if any. -/
def rindexBefore (sentpos : List Char) (cpos : Char) (j : Nat) : Option Nat :=
  (((sentpos.take j).enum.filter (fun p => p.2 == cpos)).map Prod.fst).getLast?

/-- `cpos in sentpos[j+1:]` followed by `k = sentpos.index(cpos, j+1)`: the
first position at or after `j+1` holding `cpos`, if any. -/
def indexAfter (sentpos : List Char) (cpos : Char) (j : Nat) : Option Nat :=
  ((sentpos.enum.drop (j + 1)).find? (fun p => p.2 == cpos)).map Prod.fst

/-- The bucketed distance emitted in the feature `(cpos,'<-{bindist}',cposj)`
for the nearest left neighbor carrying `cpos`. -/
def leftNeighborBucket (sentpos : List Char) (j : Nat) (cpos : Char) : Option Int :=
  (rindexBefore sentpos cpos j).map (fun k => bucketDist ((k : Int) - (j : Int)))

/-- The bucketed distance emitted in the feature `(cpos,'{bindist}->',cposj)`
for the nearest right neighbor carrying `cpos`. -/
def rightNeighborBucket (sentpos : List Char) (j : Nat) (cpos : Char) : Option Int :=
  (indexAfter sentpos cpos j).map (fun k => bucketDist ((k : Int) - (j : Int)))

/-- The curated allow-list of unordered coarse-POS pairs. -/
def cposPairAllowList : List (Char × Char) :=
  [('V', 'V'), ('V', 'N'), ('V', 'R'), ('V', 'T'), ('V', 'M'), ('V', 'P'),
   ('J', 'N'), ('N', 'N'), ('D', 'N'), ('D', '^'), ('N', '^'), ('^', '^'),
   ('R', 'J'), ('N', '&'), ('^', '&'), ('V', 'I'), ('I', 'N')]

/-- Python's set-equality membership test `{cpos,cposj} in [...]`: whether the
unordered pair is on the allow-list. -/
def pairAllowed (cpos cposj : Char) : Bool :=
  cposPairAllowList.any
    (fun p => (p.1 == cpos && p.2 == cposj) || (p.1 == cposj && p.2 == cpos))

/-- C1 (amended): for a POS neighbor found at signed distance `d = k - j`,
magnitudes 6-9 collapse to `±6` with the sign of `d`; magnitudes ≥ 10 are
rounded toward negative infinity (Python floor division) to the nearest
multiple of 10, which agrees with rounding toward zero only for positive
`d`. -/
theorem posNeighborBucket_spec :
    ∀ (sentpos : List Char) (j : Nat) (cpos : Char) (k : Nat),
      (rindexBefore sentpos cpos j = some k ∨ indexAfter sentpos cpos j = some k) →
      (6 ≤ ((k : Int) - (j : Int)).natAbs → ((k : Int) - (j : Int)).natAbs ≤ 9 →
        bucketDist ((k : Int) - (j : Int)) = if 0 < (k : Int) - (j : Int) then 6 else -6) ∧
      (10 ≤ ((k : Int) - (j : Int)).natAbs →
        bucketDist ((k : Int) - (j : Int)) = 10 * Int.fdiv ((k : Int) - (j : Int)) 10) ∧
      (10 ≤ ((k : Int) - (j : Int)).natAbs → 0 < (k : Int) - (j : Int) →
        bucketDist ((k : Int) - (j : Int)) = 10 * Int.tdiv ((k : Int) - (j : Int)) 10) := by
  intro sentpos j cpos k _
  set d : Int := (k : Int) - (j : Int) with hd
  refine ⟨?_, ?_, ?_⟩
  · intro h6 h9
    rw [bucketDist, if_pos (by omega), if_pos (by omega)]
  · intro h10
    rw [bucketDist, if_pos (by omega), if_neg (by omega), Int.mul_comm]
  · intro h10 hpos
    rw [bucketDist, if_pos (by omega), if_neg (by omega), Int.mul_comm,
      Int.fdiv_eq_tdiv (by omega) (by omega)]

theorem posNeighborBucket_spec_witness :
    bucketDist ((7 : Nat) - (0 : Nat) : Int) = 6 ∧
    bucketDist ((25 : Nat) - (0 : Nat) : Int) = 10 * Int.tdiv ((25 : Nat) - (0 : Nat) : Int) 10 := by
  have h7 := posNeighborBucket_spec ('V' :: (List.replicate 6 'x' ++ ['N'])) 0 'N' 7
    (Or.inr (by decide))
  have h25 := posNeighborBucket_spec ('V' :: (List.replicate 24 'x' ++ ['N'])) 0 'N' 25
    (Or.inr (by decide))
  constructor
  · have := h7.1 (by decide) (by decide)
    simpa using this
  · have := h25.2.2 (by decide) (by decide)
    simpa using this

/-- The sentence used in the C1 counterexample: a noun at position 0, eleven
filler tokens, and a verb at position 12. -/
def c1Sent : List Char := 'N' :: (List.replicate 11 'x' ++ ['V'])

/-- C1 counterexample: `{V,N}` is an allowed pair, the nearest left noun
neighbor of the verb at position 12 sits at signed distance `-12`, the emitted
bucket is `-20` (floor division), while rounding `-12` toward zero to the
nearest multiple of 10 with the sign preserved gives `-10`. -/
theorem posNeighborBucket_cex :
    pairAllowed 'N' 'V' = true ∧
    rindexBefore c1Sent 'N' 12 = some 0 ∧
    leftNeighborBucket c1Sent 12 'N' = some (-20) ∧
    Int.tdiv (-12) 10 * 10 = -10 ∧ ((-20 : Int) ≠ -10) := by decide

/-! ## SequentialStringIndexer (feature alphabet)

`_s2i` and `_counts` (a `Counter` with default 0) are modelled as functions;
`lenCache` is the `_len` attribute created by `freeze()`. -/

structure SequentialStringIndexer (α : Type) where
  s2i : α → Option Nat
  i2s : List α
  frozen : Bool
  cutoff : Option Nat
  counts : Nat → Nat
  lenCache : Option Nat

namespace SequentialStringIndexer

variable {α : Type} [DecidableEq α]

/-- `__init__(cutoff)`. -/
def init (cutoff : Option Nat) : SequentialStringIndexer α :=
  ⟨fun _ => none, [], false, cutoff, fun _ => 0, none⟩

/-- `__contains__` for a non-integer key: `k in self._s2i`. -/
def containsStr (st : SequentialStringIndexer α) (k : α) : Bool :=
  (st.s2i k).isSome

/-- `__contains__` for an integer key: `assert k>0; return k<len(self._i2s)`.
The assertion failure for `k ≤ 0` is an `AssertionError`. -/
def containsInt (st : SequentialStringIndexer α) (k : Int) : Except String Bool :=
  if 0 < k then Except.ok (decide (k < (st.i2s.length : Int)))
  else Except.error "AssertionError"

/-- Python list indexing `l[k]` for an `Int` index: a negative index counts
from the end, and an index outside `[-len, len)` raises `IndexError`. -/
def pyListGet (l : List α) (k : Int) : Except String α :=
  if 0 ≤ (if k < 0 then k + l.length else k) then
    match l.get? (if k < 0 then k + l.length else k).toNat with
    | some x => Except.ok x
    | none => Except.error "IndexError"
  else Except.error "IndexError"

/-- `get` for an integer key:
`if k>=len(self._i2s): return default; return self._i2s[k]`. -/
def getInt (st : SequentialStringIndexer α) (k : Int) (default : α) : Except String α :=
  if (st.i2s.length : Int) ≤ k then Except.ok default
  else pyListGet st.i2s k

/-- `get` for a non-integer key: `self._s2i.get(k, default)`. -/
def getStr (st : SequentialStringIndexer α) (k : α) (default : Option Nat) : Option Nat :=
  match st.s2i k with
  | some i => some i
  | none => default

/-- `__getitem__` for an integer key: `self._i2s[k]` (Python list indexing,
raising on a miss). -/
def getitemInt (st : SequentialStringIndexer α) (k : Int) : Except String α :=
  pyListGet st.i2s k

/-- `__getitem__` for a non-integer key: `self._s2i[k]`, `KeyError` on a miss. -/
def getitemStr (st : SequentialStringIndexer α) (k : α) : Except String Nat :=
  match st.s2i k with
  | some i => Except.ok i
  | none => Except.error "KeyError"

/-- `add(s)`: index an unseen symbol at the next sequential position (an error
if frozen), and — while unfrozen with a cutoff configured — bump the symbol's
occurrence count. -/
def add (st : SequentialStringIndexer α) (s : α) : Except String (SequentialStringIndexer α) :=
  if st.containsStr s = false then
    if st.frozen then Except.error "ValueError: Cannot add new item to frozen indexer"
    else
      let i := st.i2s.length
      let st1 : SequentialStringIndexer α :=
        { st with s2i := fun x => if x = s then some i else st.s2i x,
                  i2s := st.i2s ++ [s] }
      Except.ok (if !st1.frozen && st1.cutoff.isSome then
          { st1 with counts := fun j => if j = i then st1.counts j + 1 else st1.counts j }
        else st1)
  else
    if !st.frozen && st.cutoff.isSome then
      match st.s2i s with
      | some i =>
          Except.ok { st with counts := fun j => if j = i then st.counts j + 1 else st.counts j }
      | none => Except.error "KeyError"
    else Except.ok st

/-- `setdefault(k)`: `self.add(k); return self[k]`. -/
def setdefault (st : SequentialStringIndexer α) (k : α) :
    Except String (SequentialStringIndexer α × Nat) :=
  match st.add k with
  | Except.ok st' =>
      match st'.s2i k with
      | some i => Except.ok (st', i)
      | none => Except.error "KeyError"
  | Except.error e => Except.error e

/-- `freeze()`: with a cutoff, filter `_i2s` by count, rebuild `_s2i` as the
dict comprehension over the filtered list (later duplicates overwrite earlier
ones, as in Python), discard `_counts`; then set the flag and cache the
length. -/
def freeze (st : SequentialStringIndexer α) : SequentialStringIndexer α :=
  match st.cutoff with
  | some c =>
      let i2s' := (st.i2s.enum.filter (fun p => decide (c ≤ st.counts p.1))).map Prod.snd
      let s2i' := i2s'.enum.foldl (fun f p => fun x => if x = p.2 then some p.1 else f x)
        (fun _ => none)
      { s2i := s2i', i2s := i2s', frozen := true, cutoff := st.cutoff,
        counts := fun _ => 0, lenCache := some i2s'.length }
  | none =>
      { st with frozen := true, lenCache := some st.i2s.length }

/-- Repeated `add`, used to describe reachable alphabets. -/
def addList (st : SequentialStringIndexer α) : List α → Except String (SequentialStringIndexer α)
  | [] => Except.ok st
  | s :: rest =>
      match st.add s with
      | Except.ok st' => st'.addList rest
      | Except.error e => Except.error e

/-- Invariant of reachable states: `_i2s` is duplicate-free and `_s2i` is
exactly position-in-`_i2s`. -/
def Wf (st : SequentialStringIndexer α) : Prop :=
  st.i2s.Nodup ∧ ∀ x i, st.s2i x = some i ↔ st.i2s.get? i = some x

theorem wf_init (copt : Option Nat) : Wf (init (α := α) copt) := by
  constructor
  · simp [init]
  · intro x i
    simp [init]

/-- Case analysis of a successful `add` on a symbol already present. -/
theorem add_present (st st' : SequentialStringIndexer α) (s : α)
    (hs : (st.s2i s).isSome) (h : st.add s = Except.ok st') :
    st'.s2i = st.s2i ∧ st'.i2s = st.i2s ∧ st'.frozen = st.frozen ∧ st'.cutoff = st.cutoff := by
  unfold add at h
  rw [containsStr] at h
  rw [if_neg (by simp [hs])] at h
  rcases hb : (!st.frozen && st.cutoff.isSome) with _ | _ <;> rw [hb] at h <;> simp at h
  · subst h; exact ⟨rfl, rfl, rfl, rfl⟩
  · rcases hv : st.s2i s with _ | i <;> rw [hv] at h
    · rw [hv] at hs; simp at hs
    · simp at h
      subst h
      exact ⟨rfl, rfl, rfl, rfl⟩

/-- Case analysis of a successful `add` on a new symbol. -/
theorem add_new (st st' : SequentialStringIndexer α) (s : α)
    (hs : st.s2i s = none) (h : st.add s = Except.ok st') :
    st.frozen = false ∧
    st'.s2i = (fun x => if x = s then some st.i2s.length else st.s2i x) ∧
    st'.i2s = st.i2s ++ [s] ∧ st'.frozen = false ∧ st'.cutoff = st.cutoff := by
  unfold add at h
  rw [containsStr] at h
  rw [if_pos (by simp [hs])] at h
  rcases hf : st.frozen with _ | _ <;> rw [hf] at h
  · rcases hb : st.cutoff.isSome with _ | _ <;> simp [hb] at h <;>
      · subst h; exact ⟨rfl, rfl, rfl, rfl, rfl⟩
  · simp at h

/-- `add` preserves the invariant. -/
theorem wf_add (st st' : SequentialStringIndexer α) (s : α)
    (hwf : Wf st) (h : st.add s = Except.ok st') : Wf st' := by
  obtain ⟨hnd, hiff⟩ := hwf
  rcases hs : st.s2i s with _ | i0
  · obtain ⟨-, hs2i, hi2s, -, -⟩ := add_new st st' s hs h
    have hsnot : s ∉ st.i2s := by
      intro hmem
      obtain ⟨i, hi⟩ := List.get?_of_mem hmem
      exact absurd ((hiff s i).mpr hi) (by simp [hs])
    constructor
    · rw [hi2s]
      simp [List.nodup_append, hnd, hsnot]
    · intro x i
      rw [hs2i, hi2s]
      show (if x = s then some st.i2s.length else st.s2i x) = some i ↔
        (st.i2s ++ [s]).get? i = some x
      by_cases hx : x = s
      · subst hx
        rw [if_pos rfl]
        constructor
        · intro hsome
          have hi : i = st.i2s.length := by
            injection hsome with h'; omega
          subst hi
          exact List.get?_concat_length st.i2s x
        · intro hget
          rcases Nat.lt_trichotomy i st.i2s.length with hlt | heq | hgt
          · rw [List.get?_append hlt] at hget
            exact absurd ((hiff x i).mpr hget) (by simp [hs])
          · rw [heq]
          · have : (st.i2s ++ [x]).get? i = none := by
              apply List.get?_eq_none.mpr
              simp only [List.length_append, List.length_singleton]
              omega
            rw [this] at hget
            exact absurd hget (by simp)
      · rw [if_neg hx]
        constructor
        · intro hsome
          have hget := (hiff x i).mp hsome
          have hlt : i < st.i2s.length := by
            rcases Nat.lt_or_ge i st.i2s.length with h' | h'
            · exact h'
            · rw [List.get?_eq_none.mpr h'] at hget
              exact absurd hget (by simp)
          rw [List.get?_append hlt]
          exact hget
        · intro hget
          rcases Nat.lt_trichotomy i st.i2s.length with hlt | heq | hgt
          · rw [List.get?_append hlt] at hget
            exact (hiff x i).mpr hget
          · subst heq
            rw [List.get?_concat_length] at hget
            have : x = s := by injection hget with h'; exact h'.symm
            exact absurd this hx
          · have : (st.i2s ++ [s]).get? i = none := by
              apply List.get?_eq_none.mpr
              simp only [List.length_append, List.length_singleton]
              omega
            rw [this] at hget
            exact absurd hget (by simp)
  · obtain ⟨hs2i, hi2s, -, -⟩ := add_present st st' s (by simp [hs]) h
    rw [Wf, hs2i, hi2s]
    exact ⟨hnd, hiff⟩

/-- `add` only extends the assignment: existing indices are unchanged, the
item list grows by a suffix, and the flag and cutoff are preserved. -/
theorem add_extends (st st' : SequentialStringIndexer α) (s : α)
    (h : st.add s = Except.ok st') :
    (∀ x i, st.s2i x = some i → st'.s2i x = some i) ∧
    st.i2s <+: st'.i2s ∧ st'.frozen = st.frozen ∧ st'.cutoff = st.cutoff := by
  rcases hs : st.s2i s with _ | i0
  · obtain ⟨hf, hs2i, hi2s, hf', hc⟩ := add_new st st' s hs h
    refine ⟨?_, ?_, ?_, hc⟩
    · intro x i hx
      rw [hs2i]
      show (if x = s then some st.i2s.length else st.s2i x) = some i
      by_cases hxs : x = s
      · subst hxs; rw [hs] at hx; exact absurd hx (by simp)
      · rw [if_neg hxs]; exact hx
    · rw [hi2s]; exact ⟨[s], rfl⟩
    · rw [hf', hf]
  · obtain ⟨hs2i, hi2s, hf, hc⟩ := add_present st st' s (by simp [hs]) h
    exact ⟨fun x i hx => by rw [hs2i]; exact hx, by rw [hi2s], hf, hc⟩

/-- `addList` preserves the invariant and only extends the assignment. -/
theorem addList_extends (l : List α) :
    ∀ (st st' : SequentialStringIndexer α), st.addList l = Except.ok st' →
      (Wf st → Wf st') ∧
      (∀ x i, st.s2i x = some i → st'.s2i x = some i) ∧
      st.i2s <+: st'.i2s ∧ st'.frozen = st.frozen ∧ st'.cutoff = st.cutoff := by
  induction l with
  | nil =>
    intro st st' h
    simp only [addList] at h
    have : st = st' := by injection h
    subst this
    exact ⟨id, fun x i hx => hx, ⟨[], List.append_nil _⟩, rfl, rfl⟩
  | cons s rest ih =>
    intro st st' h
    simp only [addList] at h
    rcases ha : st.add s with e | st₁ <;> rw [ha] at h
    · exact absurd h (by simp)
    · obtain ⟨hwf1, hext1, hpre1, hf1, hc1⟩ := ih st₁ st' h
      obtain ⟨hext0, hpre0, hf0, hc0⟩ := add_extends st st₁ s ha
      refine ⟨fun hwf => hwf1 (wf_add st st₁ s hwf ha), ?_, ?_, ?_, ?_⟩
      · intro x i hx; exact hext1 x i (hext0 x i hx)
      · exact hpre0.trans hpre1
      · rw [hf1, hf0]
      · rw [hc1, hc0]

/-- The filtered-and-projected list built by `freeze` is a sublist of the
original (survivors keep their relative order). -/
theorem map_snd_filter_enumFrom_sublist (p : Nat × α → Bool) :
    ∀ (l : List α) (k : Nat), (((List.enumFrom k l).filter p).map Prod.snd).Sublist l := by
  intro l
  induction l with
  | nil => intro k; simp
  | cons a l ih =>
    intro k
    simp only [List.enumFrom, List.filter_cons]
    rcases hp : p (k, a) with _ | _
    · rw [if_neg (by simp)]
      exact (ih (k + 1)).cons a
    · rw [if_pos rfl, List.map_cons]
      exact (ih (k + 1)).cons₂ a

theorem mem_enumFrom_get? :
    ∀ (l : List α) (k i : Nat) (x : α), (i, x) ∈ List.enumFrom k l →
      k ≤ i ∧ l.get? (i - k) = some x := by
  intro l
  induction l with
  | nil => intro k i x h; exact absurd h (by simp)
  | cons a l ih =>
    intro k i x h
    simp only [List.enumFrom, List.mem_cons] at h
    rcases h with h | h
    · have hik : i = k ∧ x = a := by
        rw [Prod.mk.injEq] at h
        exact h
      obtain ⟨h1, h2⟩ := hik
      subst h1; subst h2
      simp
    · obtain ⟨hk, hget⟩ := ih (k + 1) i x h
      refine ⟨by omega, ?_⟩
      have hik : i - k = (i - (k + 1)) + 1 := by omega
      rw [hik]
      simpa using hget

theorem dictComp_not_mem :
    ∀ (l : List α) (k : Nat) (f : α → Option Nat) (x : α), x ∉ l →
      ((List.enumFrom k l).foldl (fun f p => fun x => if x = p.2 then some p.1 else f x) f) x
        = f x := by
  intro l
  induction l with
  | nil => intro k f x _; rfl
  | cons a l ih =>
    intro k f x hx
    simp only [List.enumFrom, List.foldl_cons]
    rw [ih (k + 1) _ x (by intro h; exact hx (List.mem_cons_of_mem a h))]
    rw [if_neg (by intro h; exact hx (h ▸ List.mem_cons_self a l))]

theorem dictComp_get? :
    ∀ (l : List α) (k : Nat) (f : α → Option Nat) (j : Nat) (x : α), l.Nodup →
      l.get? j = some x →
      ((List.enumFrom k l).foldl (fun f p => fun x => if x = p.2 then some p.1 else f x) f) x
        = some (k + j) := by
  intro l
  induction l with
  | nil => intro k f j x _ h; simp at h
  | cons a l ih =>
    intro k f j x hnd hget
    simp only [List.enumFrom, List.foldl_cons]
    rcases j with _ | j
    · have hxa : a = x := by simpa using hget
      subst hxa
      have hnotmem : a ∉ l := by simp at hnd; exact hnd.1
      rw [dictComp_not_mem l (k + 1) _ a hnotmem, if_pos rfl]
      simp
    · have hget' : l.get? j = some x := by simpa using hget
      have hnd' : l.Nodup := by simp at hnd; exact hnd.2
      rw [ih (k + 1) _ j x hnd' hget']
      congr 1
      omega

/-- Projections of `freeze` when a cutoff is configured. -/
theorem freeze_eq_of_cutoff_some (st : SequentialStringIndexer α) (C : Nat)
    (hc : st.cutoff = some C) :
    st.freeze.i2s = (st.i2s.enum.filter (fun p => decide (C ≤ st.counts p.1))).map Prod.snd ∧
    st.freeze.s2i =
      ((st.i2s.enum.filter (fun p => decide (C ≤ st.counts p.1))).map Prod.snd).enum.foldl
        (fun f p => fun x => if x = p.2 then some p.1 else f x) (fun _ => none) := by
  unfold freeze
  rw [hc]
  exact ⟨rfl, rfl⟩

end SequentialStringIndexer

/-- C6: in an alphabet reached from `__init__` by a sequence of `add`s, the
index stored for the `j`-th item of `_i2s` is exactly `j` (indices are
assigned 0,1,2,... in insertion order); further `add`s leave existing
assignments unchanged; and after `freeze()` with cutoff `C`, the surviving
item list is a sublist of the old one (relative order preserved), every
survivor's pre-freeze count is at least `C`, and survivors are re-indexed
consecutively from 0. -/
theorem sequentialStringIndexer_add_freeze_spec {α : Type} [DecidableEq α]
    (copt : Option Nat) (l : List α) (st : SequentialStringIndexer α)
    (hload : (SequentialStringIndexer.init copt).addList l = Except.ok st) :
    (∀ j x, st.i2s.get? j = some x → st.s2i x = some j) ∧
    (∀ l' st', st.addList l' = Except.ok st' →
      ∀ x i, st.s2i x = some i → st'.s2i x = some i) ∧
    (∀ C, copt = some C →
      st.freeze.i2s.Sublist st.i2s ∧
      (∀ x ∈ st.freeze.i2s, ∃ i, st.i2s.get? i = some x ∧ C ≤ st.counts i) ∧
      (∀ j x, st.freeze.i2s.get? j = some x → st.freeze.s2i x = some j)) := by
  obtain ⟨hwfi, -, -, -, hcut⟩ :=
    SequentialStringIndexer.addList_extends l (SequentialStringIndexer.init copt) st hload
  have hwf : SequentialStringIndexer.Wf st := hwfi (SequentialStringIndexer.wf_init copt)
  obtain ⟨hnd, hiff⟩ := hwf
  have hcopt : st.cutoff = copt := hcut
  refine ⟨?_, ?_, ?_⟩
  · intro j x hget
    exact (hiff x j).mpr hget
  · intro l' st' h x i hx
    exact (SequentialStringIndexer.addList_extends l' st st' h).2.1 x i hx
  · intro C hC
    rw [hC] at hcopt
    obtain ⟨hfi, hfs⟩ := SequentialStringIndexer.freeze_eq_of_cutoff_some st C hcopt
    have hsub : st.freeze.i2s.Sublist st.i2s := by
      rw [hfi]
      have := SequentialStringIndexer.map_snd_filter_enumFrom_sublist
        (fun p => decide (C ≤ st.counts p.1)) st.i2s 0
      simpa [List.enum] using this
    refine ⟨hsub, ?_, ?_⟩
    · intro x hx
      rw [hfi] at hx
      simp only [List.mem_map] at hx
      obtain ⟨p, hpmem, hpx⟩ := hx
      rw [List.mem_filter] at hpmem
      obtain ⟨hpenum, hpcnt⟩ := hpmem
      obtain ⟨-, hget⟩ :=
        SequentialStringIndexer.mem_enumFrom_get? st.i2s 0 p.1 p.2 (by simpa [List.enum] using hpenum)
      refine ⟨p.1, ?_, by simpa using hpcnt⟩
      rw [hpx] at hget
      simpa using hget
    · intro j x hget
      have hnd' : st.freeze.i2s.Nodup := hnd.sublist hsub
      rw [hfi] at hget hnd'
      rw [hfs]
      have := SequentialStringIndexer.dictComp_get?
        ((st.i2s.enum.filter (fun p => decide (C ≤ st.counts p.1))).map Prod.snd)
        0 (fun _ => none) j x hnd' hget
      simpa [List.enum] using this

/-- The alphabet used in the C6 witness: cutoff 2, add "a","a","b","a". -/
def c6State : SequentialStringIndexer String :=
  ((SequentialStringIndexer.init (some 2)).addList ["a", "a", "b", "a"]).toOption.getD
    (SequentialStringIndexer.init (some 2))

theorem sequentialStringIndexer_add_freeze_spec_witness :
    c6State.s2i "b" = some 1 ∧
    c6State.freeze.i2s.Sublist c6State.i2s ∧
    c6State.freeze.s2i "a" = some 0 := by
  have h := sequentialStringIndexer_add_freeze_spec (some 2) ["a", "a", "b", "a"] c6State rfl
  have h3 := h.2.2 2 rfl
  exact ⟨h.1 1 "b" rfl, h3.1, h3.2.2 0 "a" rfl⟩

/-- C9 (amended): integer `get` returns the caller-supplied default exactly
when `k ≥ len`; a negative index follows Python from-the-end indexing —
`-len ≤ k < 0` returns the element at `k + len` (not the default) and
`k < -len` raises `IndexError`; unknown-string `get` returns the default; and
raw `[]` indexing fails on a miss. -/
theorem ssi_get_lookup_spec {α : Type} [DecidableEq α]
    (st : SequentialStringIndexer α) (k : Int) (d : α) (dn : Option Nat) (x : α) (y : α) :
    ((st.i2s.length : Int) ≤ k → st.getInt k d = Except.ok d) ∧
    (k < -(st.i2s.length : Int) → st.getInt k d = Except.error "IndexError") ∧
    (-(st.i2s.length : Int) ≤ k → k < 0 → st.i2s.get? (k + st.i2s.length).toNat = some y →
      st.getInt k d = Except.ok y) ∧
    (st.s2i x = none → st.getStr x dn = dn ∧ st.getitemStr x = Except.error "KeyError") ∧
    ((st.i2s.length : Int) ≤ k → st.getitemInt k = Except.error "IndexError") := by
  refine ⟨?_, ?_, ?_, ?_, ?_⟩
  · intro hk
    rw [SequentialStringIndexer.getInt, if_pos hk]
  · intro hk
    have hk0 : k < 0 := by omega
    rw [SequentialStringIndexer.getInt, if_neg (by omega)]
    unfold SequentialStringIndexer.pyListGet
    rw [if_pos hk0, if_neg (by omega)]
  · intro hk1 hk2 hget
    rw [SequentialStringIndexer.getInt, if_neg (by omega)]
    unfold SequentialStringIndexer.pyListGet
    rw [if_pos hk2, if_pos (by omega), hget]
  · intro hx
    constructor
    · rw [SequentialStringIndexer.getStr, hx]
    · rw [SequentialStringIndexer.getitemStr, hx]
  · intro hk
    have hk0 : ¬ k < 0 := by omega
    rw [SequentialStringIndexer.getitemInt]
    unfold SequentialStringIndexer.pyListGet
    rw [if_neg hk0, if_pos (by omega)]
    rw [List.get?_eq_none.mpr (by omega)]

/-- The one-entry alphabet used for C9's witness and counterexample. -/
def c9Ssi : SequentialStringIndexer String :=
  ((SequentialStringIndexer.init none).addList ["a"]).toOption.getD
    (SequentialStringIndexer.init none)

theorem ssi_get_lookup_spec_witness :
    c9Ssi.getInt 5 "dflt" = Except.ok "dflt" ∧
    c9Ssi.getStr "zz" (some 7) = some 7 := by
  have h := ssi_get_lookup_spec c9Ssi 5 "dflt" (some 7) "zz" "a"
  exact ⟨h.1 (by decide), (h.2.2.2.1 rfl).1⟩

/-- C9 counterexample: on an indexer holding the single entry `"a"`,
`get(-1, default)` returns `"a"` (Python from-the-end indexing), not the
caller-supplied default, and `get(-2, default)` raises `IndexError` instead of
returning the default. -/
theorem ssi_get_negative_cex :
    c9Ssi.i2s = ["a"] ∧
    c9Ssi.getInt (-1) "dflt" = Except.ok "a" ∧
    c9Ssi.getInt (-2) "dflt" = Except.error "IndexError" ∧
    ("a" : String) ≠ "dflt" := by
  refine ⟨rfl, rfl, rfl, by decide⟩

/-- C10: the integer branch of `__contains__` asserts `k > 0`, so testing
membership of index 0 (or any `k ≤ 0`) raises `AssertionError`, although 0 is
the very first index assigned by `add` on a fresh indexer; for `k > 0` it
returns `k < len(_i2s)`. -/
theorem ssi_containsInt_assert_spec {α : Type} [DecidableEq α]
    (st st' : SequentialStringIndexer α) (k : Int) (s : α) :
    (k ≤ 0 → st.containsInt k = Except.error "AssertionError") ∧
    (0 < k → st.containsInt k = Except.ok (decide (k < (st.i2s.length : Int)))) ∧
    ((SequentialStringIndexer.init none).add s = Except.ok st' → st'.s2i s = some 0) := by
  refine ⟨?_, ?_, ?_⟩
  · intro hk
    rw [SequentialStringIndexer.containsInt, if_neg (by omega)]
  · intro hk
    rw [SequentialStringIndexer.containsInt, if_pos hk]
  · intro h
    simp only [SequentialStringIndexer.add, SequentialStringIndexer.containsStr,
      SequentialStringIndexer.init] at h
    simp at h
    subst h
    simp

/-- The one-entry alphabet used for C10's witness. -/
def c10Ssi : SequentialStringIndexer String :=
  ((SequentialStringIndexer.init none).addList ["a"]).toOption.getD
    (SequentialStringIndexer.init none)

theorem ssi_containsInt_assert_spec_witness :
    c10Ssi.containsInt 0 = Except.error "AssertionError" ∧
    c10Ssi.containsInt 1 = Except.ok false ∧
    c10Ssi.s2i "a" = some 0 := by
  have h := ssi_containsInt_assert_spec c10Ssi c10Ssi 0 "a"
  have h1 := ssi_containsInt_assert_spec c10Ssi c10Ssi 1 "a"
  refine ⟨h.1 (by omega), ?_, ?_⟩
  · have := h1.2.1 (by omega)
    rw [this]
    rfl
  · exact (ssi_containsInt_assert_spec (SequentialStringIndexer.init none) c10Ssi 0
      ("a" : String)).2.2 rfl

/-! ## IndexedStringSet / IndexedFeatureMap -/

/-- `IndexedStringSet`: an indexer together with the set of active indices. -/
structure IndexedStringSet (α : Type) where
  indexer : SequentialStringIndexer α
  indices : Finset Nat

/-- `IndexedStringSet.setdefault(k)` for a non-integer key: `self.add(k)` —
which runs `self._indexer.setdefault(k)` and adds the resulting index to the
set — followed by `self._indexer[k]`. -/
def IndexedStringSet.setdefault {α : Type} [DecidableEq α] (s : IndexedStringSet α) (k : α) :
    Except String (IndexedStringSet α × Nat) :=
  match s.indexer.add k with
  | Except.ok idx' =>
      match idx'.s2i k with
      | some i => Except.ok (⟨idx', insert i s.indices⟩, i)
      | none => Except.error "KeyError"
  | Except.error e => Except.error e

/-- `IndexedFeatureMap`: active-index set plus the explicit value-override map
`_map` and the default value (1 in the constructor's default argument). -/
structure IndexedFeatureMap (α : Type) where
  fset : IndexedStringSet α
  fmap : Nat → Option Int
  fdefault : Int

/-- `IndexedFeatureMap.__init__(indexer, default)`. -/
def IndexedFeatureMap.init {α : Type} (indexer : SequentialStringIndexer α) (d : Int) :
    IndexedFeatureMap α :=
  ⟨⟨indexer, ∅⟩, fun _ => none, d⟩

/-- `IndexedFeatureMap.__setitem__(k, v)`: add the feature/value pair if the
feature is already indexed or can be added to the index; no effect if the
alphabet is frozen and the feature is not part of it.  The value is recorded
in `_map` only when it differs from the default. -/
def IndexedFeatureMap.setitem {α : Type} [DecidableEq α]
    (m : IndexedFeatureMap α) (k : α) (v : Int) : IndexedFeatureMap α :=
  if !m.fset.indexer.frozen || (m.fset.indexer.s2i k).isSome then
    match m.fset.setdefault k with
    | Except.ok (s', i) =>
        if v ≠ m.fdefault then
          { m with fset := s', fmap := fun j => if j = i then some v else m.fmap j }
        else { m with fset := s' }
    | Except.error _ => m  -- unreachable: the guard ensures the add succeeds
  else m

/-- C8: setting a feature name that is unseen by a frozen alphabet is a
silent no-op: `__setitem__` returns the map — active-index set, override map
and backing alphabet — entirely unchanged, and raises no error (the embedding
is a total function with no `Except`). -/
theorem ifm_setitem_frozen_noop {α : Type} [DecidableEq α]
    (m : IndexedFeatureMap α) (k : α) (v : Int)
    (hfrozen : m.fset.indexer.frozen = true) (hmiss : m.fset.indexer.s2i k = none) :
    m.setitem k v = m := by
  rw [IndexedFeatureMap.setitem, hfrozen, hmiss]
  simp

/-- The frozen one-symbol alphabet and empty vector used in the C8 witness. -/
def c8Ifm : IndexedFeatureMap String :=
  IndexedFeatureMap.init
    ((((SequentialStringIndexer.init none).addList ["a"]).toOption.getD
      (SequentialStringIndexer.init none)).freeze) 1

theorem ifm_setitem_frozen_noop_witness : c8Ifm.setitem "d" 1 = c8Ifm :=
  ifm_setitem_frozen_noop c8Ifm "d" 1 rfl rfl

/-- Invariant used for the sparsity analysis of `IndexedFeatureMap`: the
backing alphabet is well-formed, the default is `d`, every override index is
within the alphabet, and the feature `k` has no override entry. -/
def IfmInv {α : Type} (d : Int) (k : α) (m : IndexedFeatureMap α) : Prop :=
  SequentialStringIndexer.Wf m.fset.indexer ∧ m.fdefault = d ∧
  (∀ i, m.fmap i ≠ none → i < m.fset.indexer.i2s.length) ∧
  (∀ i, m.fset.indexer.s2i k = some i → m.fmap i = none)

theorem ifmInv_setitem {α : Type} [DecidableEq α] (d : Int) (k : α)
    (m : IndexedFeatureMap α) (k' : α) (v : Int)
    (hinv : IfmInv d k m) (hkv : k' = k → v = d) : IfmInv d k (m.setitem k' v) := by
  obtain ⟨hwf, hd, hbound, hnone⟩ := hinv
  rw [IndexedFeatureMap.setitem]
  rcases hguard : (!m.fset.indexer.frozen || (m.fset.indexer.s2i k').isSome) with _ | _
  · rw [if_neg (by simp)]
    exact ⟨hwf, hd, hbound, hnone⟩
  · rw [if_pos rfl, IndexedStringSet.setdefault]
    rcases hadd : m.fset.indexer.add k' with e | idx' <;> dsimp only
    · exact ⟨hwf, hd, hbound, hnone⟩
    · rcases hs2i : idx'.s2i k' with _ | i <;> dsimp only
      · exact ⟨hwf, hd, hbound, hnone⟩
      · have hwf' : SequentialStringIndexer.Wf idx' :=
          SequentialStringIndexer.wf_add m.fset.indexer idx' k' hwf hadd
        obtain ⟨hext, hpre, -, -⟩ :=
          SequentialStringIndexer.add_extends m.fset.indexer idx' k' hadd
        have hlen : m.fset.indexer.i2s.length ≤ idx'.i2s.length := hpre.length_le
        have hilt : i < idx'.i2s.length := by
          have := (hwf'.2 k' i).mp hs2i
          rcases Nat.lt_or_ge i idx'.i2s.length with h' | h'
          · exact h'
          · rw [List.get?_eq_none.mpr h'] at this
            exact absurd this (by simp)
        have hs2ik : ∀ i2, idx'.s2i k = some i2 → m.fset.indexer.s2i k = some i2 ∨
            (k = k' ∧ i2 = m.fset.indexer.i2s.length) := by
          intro i2 h2
          rcases hold : m.fset.indexer.s2i k' with _ | i0
          · obtain ⟨-, hs2i', -, -, -⟩ :=
              SequentialStringIndexer.add_new m.fset.indexer idx' k' hold hadd
            rw [hs2i'] at h2
            dsimp only at h2
            by_cases hkk : k = k'
            · right
              refine ⟨hkk, ?_⟩
              rw [if_pos hkk] at h2
              injection h2 with h2'
              omega
            · left
              rw [if_neg hkk] at h2
              exact h2
          · obtain ⟨hs2i', -, -, -⟩ :=
              SequentialStringIndexer.add_present m.fset.indexer idx' k' (by simp [hold]) hadd
            rw [hs2i'] at h2
            exact Or.inl h2
        by_cases hv : v ≠ m.fdefault
        · rw [if_pos hv]
          refine ⟨hwf', hd, ?_, ?_⟩
          · intro j hj
            show j < idx'.i2s.length
            by_cases hji : j = i
            · omega
            · simp only [if_neg hji] at hj
              exact Nat.lt_of_lt_of_le (hbound j hj) hlen
          · intro i2 h2
            show (if i2 = i then some v else m.fmap i2) = none
            rcases hs2ik i2 h2 with hcase | ⟨hkk, hi2⟩
            · have hne : i2 ≠ i := by
                intro heq
                subst heq
                -- i2 indexes both k and k' in the well-formed idx'
                have hk2 : idx'.s2i k = some i2 := h2
                have hgk := (hwf'.2 k i2).mp hk2
                have hgk' := (hwf'.2 k' i2).mp hs2i
                rw [hgk] at hgk'
                have : k = k' := by injection hgk'
                exact hv ((hd ▸ hkv this.symm ▸ rfl))
              rw [if_neg hne]
              exact hnone i2 hcase
            · subst hkk
              exact absurd (hd ▸ hkv rfl) (fun h => hv (by rw [h]))
        · rw [if_neg hv]
          refine ⟨hwf', hd, ?_, ?_⟩
          · intro j hj
            exact Nat.lt_of_lt_of_le (hbound j hj) hlen
          · intro i2 h2
            rcases hs2ik i2 h2 with hcase | ⟨hkk, hi2⟩
            · exact hnone i2 hcase
            · subst hi2
              show m.fmap m.fset.indexer.i2s.length = none
              by_contra hne
              exact absurd (hbound _ hne) (by omega)

/-- C7 (amended): assigning a feature the vector's default value never adds an
override entry — but it does not remove a previously stored non-default
override; consequently, over any run of `__setitem__` operations from a fresh
vector in which every assignment to feature `k` carries the default value,
`k`'s index has no entry in the override map. -/
theorem ifm_sparsity_spec {α : Type} [DecidableEq α] :
    (∀ (m : IndexedFeatureMap α) (k : α), (m.setitem k m.fdefault).fmap = m.fmap) ∧
    (∀ (idx0 : SequentialStringIndexer α) (d : Int) (ops : List (α × Int)) (k : α) (i : Nat),
      SequentialStringIndexer.Wf idx0 →
      (∀ v, (k, v) ∈ ops → v = d) →
      (ops.foldl (fun m p => m.setitem p.1 p.2)
          (IndexedFeatureMap.init idx0 d)).fset.indexer.s2i k = some i →
      (ops.foldl (fun m p => m.setitem p.1 p.2)
          (IndexedFeatureMap.init idx0 d)).fmap i = none) := by
  constructor
  · intro m k
    rw [IndexedFeatureMap.setitem]
    rcases hguard : (!m.fset.indexer.frozen || (m.fset.indexer.s2i k).isSome) with _ | _
    · rw [if_neg (by simp)]
    · rw [if_pos rfl, IndexedStringSet.setdefault]
      rcases hadd : m.fset.indexer.add k with e | idx' <;> dsimp only
      rcases hs2i : idx'.s2i k with _ | i <;> dsimp only
      rw [if_neg (by simp)]
  · intro idx0 d ops k i hwf0 hops
    have hfold : ∀ (ops : List (α × Int)) (m : IndexedFeatureMap α), IfmInv d k m →
        (∀ v, (k, v) ∈ ops → v = d) →
        IfmInv d k (ops.foldl (fun m p => m.setitem p.1 p.2) m) := by
      intro ops
      induction ops with
      | nil => intro m hm _; exact hm
      | cons p rest ih =>
        intro m hm hops
        simp only [List.foldl_cons]
        refine ih (m.setitem p.1 p.2) ?_ ?_
        · exact ifmInv_setitem d k m p.1 p.2 hm
            (fun hpk => hops p.2 (by rw [← hpk]; simp))
        · intro v hv; exact hops v (List.mem_cons_of_mem _ hv)
    have hinv0 : IfmInv d k (IndexedFeatureMap.init idx0 d) := by
      refine ⟨hwf0, rfl, ?_, ?_⟩
      · intro i hi; exact absurd rfl hi
      · intro i _; rfl
    intro hs
    exact (hfold ops _ hinv0 hops).2.2.2 i hs

/-- The fresh unfrozen vector used in C7's counterexample and witness. -/
def c7Ifm : IndexedFeatureMap String :=
  IndexedFeatureMap.init (SequentialStringIndexer.init none) 1

/-- C7 counterexample: set feature "f" to 2, then back to the default 1.  The
most recent assigned value equals the default, yet the override map still
holds the stale entry `0 ↦ 2`. -/
theorem ifm_sparsity_cex :
    ((c7Ifm.setitem "f" 2).setitem "f" 1).fdefault = 1 ∧
    ((c7Ifm.setitem "f" 2).setitem "f" 1).fset.indexer.s2i "f" = some 0 ∧
    ((c7Ifm.setitem "f" 2).setitem "f" 1).fmap 0 = some 2 :=
  ⟨rfl, rfl, rfl⟩

theorem ifm_sparsity_spec_witness :
    (c7Ifm.setitem "g" 1).fmap = c7Ifm.fmap ∧
    ([("g", (1 : Int))].foldl (fun m p => m.setitem p.1 p.2)
        (IndexedFeatureMap.init (SequentialStringIndexer.init none) 1)).fmap 0 = none := by
  constructor
  · exact ifm_sparsity_spec.1 c7Ifm "g"
  · refine ifm_sparsity_spec.2 (SequentialStringIndexer.init none) 1 [("g", 1)] "g" 0
      (SequentialStringIndexer.wf_init none) ?_ rfl
    intro v hv
    simp only [List.mem_singleton, Prod.mk.injEq] at hv
    exact hv.2

/-! ## Sense data (`senseTrie`, `senseCountMap`, `possibleSensesMap`)

Python dicts keyed by strings/chars/tuples are modelled as association lists
with dict-update semantics; Python sets of strings as duplicate-free lists. -/

/-- Python `s.split(sep)` for a single-character separator, over the
character list: splitting never yields an empty list of groups. -/
def splitChar (sep : Char) : List Char → List (List Char)
  | [] => [[]]
  | c :: rest =>
      let r := splitChar sep rest
      if c = sep then [] :: r
      else
        match r with
        | [] => [[c]]
        | g :: gs => (c :: g) :: gs

/-- Python `s.split(sep)` for a single-character separator. -/
def pySplit (s : String) (sep : Char) : List String :=
  (splitChar sep s.data).map (fun g => String.mk g)

/-- Python dict update on an association list: overwrite the first binding of
the key if present, else append. -/
def alSet {κ ν : Type} [DecidableEq κ] : List (κ × ν) → κ → ν → List (κ × ν)
  | [], k, v => [(k, v)]
  | (k', v') :: rest, k, v =>
      if k' = k then (k', v) :: rest else (k', v') :: alSet rest k v

/-- Python dict lookup on an association list. -/
def alGet {κ ν : Type} [DecidableEq κ] : List (κ × ν) → κ → Option ν
  | [], _ => none
  | (k', v') :: rest, k => if k' = k then some v' else alGet rest k

/-- Python `set.add` on a duplicate-free list. -/
def setAdd (s : List String) (x : String) : List String :=
  if x ∈ s then s else s ++ [x]

/-- Python `range(start, stop, stride)` for a positive stride. -/
def pyRange (start stop stride : Nat) : List Nat :=
  (List.range ((stop - start + stride - 1) / stride)).map (fun n => start + n * stride)

/-- The three module-level sense tables: `senseTrie` (`None` until the
original-format loader creates it), `senseCountMap` (POS → phrase → number of
senses) and `possibleSensesMap` (word → set of BIO-prefixed senses). -/
structure SenseData where
  senseTrie : Option (Trie String (List (Char × String)))
  senseCountMap : List (Char × List (List String × Nat))
  possibleSensesMap : List (String × List String)

/-- The module-level initial state. -/
def SenseData.initial : SenseData := ⟨none, [], []⟩

/-- `_addMostFrequentSense(phrase, simplePOS, sense, numSenses)` (`intern` is
the identity on values).  When `senseTrie` is `None` — as on the new-format
path, which never creates it — Python's `phrase not in senseTrie` raises
`TypeError`. -/
def _addMostFrequentSense (st : SenseData) (phrase : List String) (simplePOS : Char)
    (sense : String) (numSenses : Nat) : Except String SenseData :=
  match st.senseTrie with
  | none => Except.error "TypeError: argument of type NoneType is not iterable"
  | some tr =>
      let inner := (alGet st.senseCountMap simplePOS).getD []
      let counts' := alSet st.senseCountMap simplePOS (alSet inner phrase numSenses)
      if tr.containsKey phrase = false then
        Except.ok { st with senseTrie := some (tr.insert phrase [(simplePOS, sense)]),
                            senseCountMap := counts' }
      else
        match tr.get phrase with
        | some m =>
            Except.ok { st with senseTrie := some (tr.insert phrase (alSet m simplePOS sense)),
                                senseCountMap := counts' }
        | none => Except.error "TypeError"  -- Python: `None[simplePOS] = ...`

/-- One (whitespace-split, nonempty) line of `_loadSenseFileOriginalFormat`:
`parts[2]` is the most-frequent sense, `(len(parts)-1)//spacing` the sense
count, `parts[0].split('_')` the word tuple; every stride-aligned column from
index 2 onward is a possible sense recorded per component word with a
`B-`/`I-` prefix. -/
def loadSenseLineOriginalFormat (spacing : Nat) (shortPOS : Char) (st : SenseData)
    (parts : List String) : Except String SenseData :=
  match parts with
  | p0 :: _ :: p2 :: _ =>
      let sense := p2
      let numSenses := (parts.length - 1) / spacing
      let wordParts := pySplit p0 '_'
      match _addMostFrequentSense st wordParts shortPOS sense numSenses with
      | Except.error e => Except.error e
      | Except.ok st1 =>
          Except.ok ((pyRange 2 parts.length spacing).foldl (fun st i =>
            (List.range wordParts.length).foldl (fun st j =>
              let w := wordParts.getD j ""
              let tmp := (alGet st.possibleSensesMap w).getD []
              let possibleSense := parts.getD i ""
              let newSet := setAdd tmp ((if j = 0 then "B-" else "I-") ++ possibleSense)
              { st with possibleSensesMap := alSet st.possibleSensesMap w newSet }) st) st1)
  | _ => Except.error "IndexError"

/-- `_loadSenseFileOriginalFormat(senseFile, shortPOS)` over the pre-split
nonempty lines of the file; the stride is 2 for the verb file and 3 for the
noun file. -/
def _loadSenseFileOriginalFormat (st : SenseData) (lines : List (List String))
    (shortPOS : Char) : Except String SenseData :=
  let spacing := if shortPOS = 'V' then 2 else 3
  lines.foldlM (fun st parts => loadSenseLineOriginalFormat spacing shortPOS st parts) st

/-- `loadSenseDataOriginalFormat()`: assert `senseTrie` is unset, create it,
assert the companion maps are empty, then load the noun file (`"N"`) and the
verb file (`"V"`). -/
def loadSenseDataOriginalFormat (st : SenseData)
    (nounLines verbLines : List (List String)) : Except String SenseData :=
  if st.senseTrie.isSome then Except.error "AssertionError"
  else
    let st1 : SenseData := { st with senseTrie := some Trie.empty }
    if st1.possibleSensesMap ≠ [] then Except.error "AssertionError"
    else if st1.senseCountMap ≠ [] then Except.error "AssertionError"
    else
      match _loadSenseFileOriginalFormat st1 nounLines 'N' with
      | Except.error e => Except.error e
      | Except.ok st2 => _loadSenseFileOriginalFormat st2 verbLines 'V'

/-- One line of a noun/verb file in `loadSenseDataNewFormat`: the code
evaluates `parts[1].indexOf('=')`, but Python `str` has no `indexOf` method
(a leftover from the Java original), so any line with at least two
tab-separated fields raises `AttributeError`; a shorter line raises
`IndexError` on `parts[1]`, which the `except IndexError` handler prints and
re-raises. -/
def loadSenseLineNewFormat (pos : Char) (st : SenseData) (parts : List String) :
    Except String SenseData :=
  match parts.get? 1 with
  | none => Except.error "IndexError"
  | some _ => Except.error "AttributeError: str object has no attribute indexOf"

/-- One line of the possible-senses gazetteer in `loadSenseDataNewFormat`. -/
def loadPossLine (st : SenseData) (parts : List String) : SenseData :=
  match parts with
  | [] => st
  | p0 :: rest =>
      let wordParts := pySplit p0 '_'
      (List.range wordParts.length).foldl (fun st j =>
        let w := wordParts.getD j ""
        let tmp := (alGet st.possibleSensesMap w).getD []
        let newSet := rest.foldl (fun tmp sense =>
          setAdd tmp ((if j = 0 then "B-" else "I-") ++ sense)) tmp
        { st with possibleSensesMap := alSet st.possibleSensesMap w newSet }) st

/-- `loadSenseDataNewFormat()`: assert the companion maps are empty, process
the noun file (POS `N`) then the verb file (POS `V`) — every data line raises
(see `loadSenseLineNewFormat`) and `senseTrie` is never created on this path —
and finally the possible-senses gazetteer. -/
def loadSenseDataNewFormat (st : SenseData)
    (nounLines verbLines possLines : List (List String)) : Except String SenseData :=
  if st.possibleSensesMap ≠ [] then Except.error "AssertionError"
  else if st.senseCountMap ≠ [] then Except.error "AssertionError"
  else
    match nounLines.foldlM (fun st parts => loadSenseLineNewFormat 'N' st parts) st with
    | Except.error e => Except.error e
    | Except.ok st1 =>
        match verbLines.foldlM (fun st parts => loadSenseLineNewFormat 'V' st parts) st1 with
        | Except.error e => Except.error e
        | Except.ok st2 => Except.ok (possLines.foldl loadPossLine st2)

/-- The state produced by loading one well-formed noun line and one
well-formed verb line in the original format. -/
def c2Loaded : SenseData :=
  (loadSenseDataOriginalFormat SenseData.initial
      [["dog", "1", "noun.animal"]] [["run", "1", "verb.motion"]]).toOption.getD
    SenseData.initial

/-- C2: the original-format loader populates all three tables from well-formed
input — the trie maps `("dog",)` to `{'N': "noun.animal"}` and `("run",)` to
`{'V': "verb.motion"}`, the count map holds both phrases under their POS, and
the possible-senses map holds both words — while the new-format loader raises
on every well-formed data line (`parts[1].indexOf` does not exist on Python
strings, and `senseTrie` is never created on that path), so it populates
nothing. -/
theorem loadSenseData_populates_spec :
    (loadSenseDataOriginalFormat SenseData.initial
        [["dog", "1", "noun.animal"]] [["run", "1", "verb.motion"]] = Except.ok c2Loaded) ∧
    ((c2Loaded.senseTrie.getD Trie.empty).get ["dog"] = some [('N', "noun.animal")] ∧
      (c2Loaded.senseTrie.getD Trie.empty).get ["run"] = some [('V', "verb.motion")]) ∧
    (alGet c2Loaded.senseCountMap 'N' = some [(["dog"], 0)] ∧
      alGet c2Loaded.senseCountMap 'V' = some [(["run"], 1)]) ∧
    (alGet c2Loaded.possibleSensesMap "dog" = some ["B-noun.animal"] ∧
      alGet c2Loaded.possibleSensesMap "run" = some ["B-verb.motion"]) ∧
    (loadSenseDataNewFormat SenseData.initial
        [["dog", "SENSE=noun.animal", "x", "NUM=2"]] [] []
      = Except.error "AttributeError: str object has no attribute indexOf") ∧
    (∀ (pos : Char) (st : SenseData) (parts : List String),
      ∃ e, loadSenseLineNewFormat pos st parts = Except.error e) := by
  refine ⟨rfl, ⟨rfl, rfl⟩, ⟨rfl, rfl⟩, ⟨rfl, rfl⟩, rfl, ?_⟩
  intro pos st parts
  rw [loadSenseLineNewFormat]
  rcases parts.get? 1 with _ | p
  · exact ⟨"IndexError", rfl⟩
  · exact ⟨"AttributeError: str object has no attribute indexOf", rfl⟩

/-! ## Most-frequent-sense lookup and the greedy baseline labeling -/

/-- `getMostFrequentSensePrefix(stems, coarse_poses)` against a loaded trie
(the lazy first-use load is taken as given; values stored in the trie are
POS → sense dicts).  If the longest match covers neither the first-token nor
the last-token coarse POS, retry on the input truncated to `matchLen - 1`
stems.  An empty `coarse_poses` against a successful trie match would raise
`IndexError` in Python; call sites always pass equal-length lists. -/
def getMostFrequentSensePrefix (tr : Trie String (List (Char × String))) :
    (stems : List String) → (coarse_poses : List Char) → Option (List String × String)
  | stems, coarse_poses =>
    match h : tr.longest stems with
    | none => none
    | some (pre, pos2sense) =>
        match coarse_poses with
        | [] => none
        | c0 :: cs =>
            match alGet pos2sense c0 with
            | some sense => some (pre, sense)
            | none =>
                match alGet pos2sense ((c0 :: cs).getLast (by simp)) with
                | some sense => some (pre, sense)
                | none =>
                    let stems' := stems.take (pre.length - 1)
                    let coarse' := (c0 :: cs).take (pre.length - 1)
                    if stems' = [] then none
                    else getMostFrequentSensePrefix tr stems' coarse'
termination_by stems _ => stems.length
decreasing_by
  obtain ⟨hpne, hpre, -⟩ := Trie.longest_sound stems tr pre pos2sense h
  have h1 : 1 ≤ pre.length := by
    rcases pre with _ | _
    · exact absurd rfl hpne
    · simp
  have h2 : pre.length ≤ stems.length := hpre.length_le
  simp only [List.length_take]
  omega

theorem getMostFrequentSensePrefix_nil (tr : Trie String (List (Char × String)))
    (coarse_poses : List Char) : getMostFrequentSensePrefix tr [] coarse_poses = none := by
  rcases tr with ⟨m, vals⟩
  rw [getMostFrequentSensePrefix]
  split
  · rfl
  · rename_i pre pos2sense hl
    simp [Trie.longest] at hl

theorem getMostFrequentSensePrefix_sound_aux (tr : Trie String (List (Char × String))) :
    ∀ (n : Nat) (stems : List String) (coarse_poses : List Char) (p : List String)
      (sense : String),
      stems.length ≤ n →
      getMostFrequentSensePrefix tr stems coarse_poses = some (p, sense) →
      p ≠ [] ∧ p <+: stems := by
  intro n
  induction n with
  | zero =>
    intro stems coarse_poses p sense hlen h
    have hnil : stems = [] := List.length_eq_zero.mp (Nat.le_zero.mp hlen)
    subst hnil
    rw [getMostFrequentSensePrefix_nil] at h
    exact absurd h (by simp)
  | succ n ih =>
    intro stems coarse_poses p sense hlen h
    rw [getMostFrequentSensePrefix] at h
    split at h
    · exact absurd h (by simp)
    · rename_i pre pos2sense hl
      split at h
      · exact absurd h (by simp)
      · rename_i c0 cs
        obtain ⟨hprene, hpfx, -⟩ := Trie.longest_sound stems tr pre pos2sense hl
        split at h
        · simp only [Option.some.injEq, Prod.mk.injEq] at h
          obtain ⟨h1, -⟩ := h
          subst h1
          exact ⟨hprene, hpfx⟩
        · split at h
          · simp only [Option.some.injEq, Prod.mk.injEq] at h
            obtain ⟨h1, -⟩ := h
            subst h1
            exact ⟨hprene, hpfx⟩
          · dsimp only at h
            split at h
            · exact absurd h (by simp)
            · have h1 : 1 ≤ pre.length := by
                rcases pre with _ | _
                · exact absurd rfl hprene
                · simp
              have h2 : pre.length ≤ stems.length := hpfx.length_le
              have hlen' : (stems.take (pre.length - 1)).length ≤ n := by
                simp only [List.length_take]
                omega
              obtain ⟨hne, hpre'⟩ := ih (stems.take (pre.length - 1))
                ((c0 :: cs).take (pre.length - 1)) p sense hlen' h
              exact ⟨hne, hpre'.trans ⟨stems.drop (pre.length - 1), List.take_append_drop _ _⟩⟩

theorem getMostFrequentSensePrefix_sound (tr : Trie String (List (Char × String)))
    (stems : List String) (coarse_poses : List Char) (p : List String) (sense : String)
    (h : getMostFrequentSensePrefix tr stems coarse_poses = some (p, sense)) :
    p ≠ [] ∧ p <+: stems :=
  getMostFrequentSensePrefix_sound_aux tr stems.length stems coarse_poses p sense
    (Nat.le_refl _) h

/-- Fuel-indexed variant of `getMostFrequentSensePrefix` used to state the
termination bound; the outer `none` means the recursion did not finish within
`fuel` calls. -/
def getMostFrequentSensePrefixFuel (tr : Trie String (List (Char × String))) :
    Nat → List String → List Char → Option (Option (List String × String))
  | 0, _, _ => none
  | fuel + 1, stems, coarse_poses =>
      match tr.longest stems with
      | none => some none
      | some (pre, pos2sense) =>
          match coarse_poses with
          | [] => some none
          | c0 :: cs =>
              match alGet pos2sense c0 with
              | some sense => some (some (pre, sense))
              | none =>
                  match alGet pos2sense ((c0 :: cs).getLast (by simp)) with
                  | some sense => some (some (pre, sense))
                  | none =>
                      if stems.take (pre.length - 1) = [] then some none
                      else getMostFrequentSensePrefixFuel tr fuel
                        (stems.take (pre.length - 1)) ((c0 :: cs).take (pre.length - 1))

theorem getMFSP_of_longest_none (tr : Trie String (List (Char × String)))
    (stems : List String) (coarse_poses : List Char) (hl : tr.longest stems = none) :
    getMostFrequentSensePrefix tr stems coarse_poses = none := by
  rw [getMostFrequentSensePrefix]
  split
  · rfl
  · rename_i pre m heq
    rw [hl] at heq
    exact absurd heq (by simp)

theorem getMFSP_coarse_nil (tr : Trie String (List (Char × String))) (stems : List String) :
    getMostFrequentSensePrefix tr stems [] = none := by
  rw [getMostFrequentSensePrefix]
  split
  · rfl
  · rfl

theorem getMFSP_first_match (tr : Trie String (List (Char × String)))
    (stems : List String) (c0 : Char) (cs : List Char) (pre : List String)
    (m : List (Char × String)) (sense : String)
    (hl : tr.longest stems = some (pre, m)) (hc : alGet m c0 = some sense) :
    getMostFrequentSensePrefix tr stems (c0 :: cs) = some (pre, sense) := by
  rw [getMostFrequentSensePrefix]
  split
  · rename_i heq
    rw [hl] at heq
    exact absurd heq (by simp)
  · rename_i pre' m' heq
    rw [hl] at heq
    simp only [Option.some.injEq, Prod.mk.injEq] at heq
    obtain ⟨h1, h2⟩ := heq
    subst h1; subst h2
    dsimp only
    rw [hc]

theorem getMFSP_last_match (tr : Trie String (List (Char × String)))
    (stems : List String) (c0 : Char) (cs : List Char) (pre : List String)
    (m : List (Char × String)) (sense : String)
    (hl : tr.longest stems = some (pre, m)) (hc0 : alGet m c0 = none)
    (hlast : alGet m ((c0 :: cs).getLast (by simp)) = some sense) :
    getMostFrequentSensePrefix tr stems (c0 :: cs) = some (pre, sense) := by
  rw [getMostFrequentSensePrefix]
  split
  · rename_i heq
    rw [hl] at heq
    exact absurd heq (by simp)
  · rename_i pre' m' heq
    rw [hl] at heq
    simp only [Option.some.injEq, Prod.mk.injEq] at heq
    obtain ⟨h1, h2⟩ := heq
    subst h1; subst h2
    dsimp only
    rw [hc0]
    dsimp only
    rw [hlast]

theorem getMFSP_rec (tr : Trie String (List (Char × String)))
    (stems : List String) (c0 : Char) (cs : List Char) (pre : List String)
    (m : List (Char × String))
    (hl : tr.longest stems = some (pre, m)) (hc0 : alGet m c0 = none)
    (hlast : alGet m ((c0 :: cs).getLast (by simp)) = none) :
    getMostFrequentSensePrefix tr stems (c0 :: cs)
      = if stems.take (pre.length - 1) = [] then none
        else getMostFrequentSensePrefix tr (stems.take (pre.length - 1))
            ((c0 :: cs).take (pre.length - 1)) := by
  rw [getMostFrequentSensePrefix]
  split
  · rename_i heq
    rw [hl] at heq
    exact absurd heq (by simp)
  · rename_i pre' m' heq
    rw [hl] at heq
    simp only [Option.some.injEq, Prod.mk.injEq] at heq
    obtain ⟨h1, h2⟩ := heq
    subst h1; subst h2
    dsimp only
    rw [hc0]
    dsimp only
    rw [hlast]

theorem getMFSPFuel_agrees_aux (tr : Trie String (List (Char × String))) :
    ∀ (n : Nat) (stems : List String) (coarse_poses : List Char) (fuel : Nat),
      stems.length ≤ n → stems.length < fuel →
      getMostFrequentSensePrefixFuel tr fuel stems coarse_poses
        = some (getMostFrequentSensePrefix tr stems coarse_poses) := by
  intro n
  induction n with
  | zero =>
    intro stems coarse_poses fuel hn hf
    have hnil : stems = [] := List.length_eq_zero.mp (Nat.le_zero.mp hn)
    subst hnil
    rcases fuel with _ | f
    · omega
    rw [getMostFrequentSensePrefix_nil]
    rcases tr with ⟨m, vals⟩
    rfl
  | succ n ih =>
    intro stems coarse_poses fuel hn hf
    rcases fuel with _ | f
    · omega
    rcases hl : tr.longest stems with _ | ⟨pre, m⟩
    · rw [getMFSP_of_longest_none tr stems coarse_poses hl]
      simp only [getMostFrequentSensePrefixFuel, hl]
    · obtain ⟨hprene, hpfx, -⟩ := Trie.longest_sound stems tr pre m hl
      have h1 : 1 ≤ pre.length := by
        rcases pre with _ | _
        · exact absurd rfl hprene
        · simp
      have h2 : pre.length ≤ stems.length := hpfx.length_le
      rcases coarse_poses with _ | ⟨c0, cs⟩
      · rw [getMFSP_coarse_nil]
        simp only [getMostFrequentSensePrefixFuel, hl]
      · rcases hc0 : alGet m c0 with _ | sense
        · rcases hlast : alGet m ((c0 :: cs).getLast (by simp)) with _ | sense
          · by_cases hemp : stems.take (pre.length - 1) = []
            · rw [getMFSP_rec tr stems c0 cs pre m hl hc0 hlast, if_pos hemp]
              simp only [getMostFrequentSensePrefixFuel, hl, hc0, hlast, if_pos hemp]
            · rw [getMFSP_rec tr stems c0 cs pre m hl hc0 hlast, if_neg hemp]
              simp only [getMostFrequentSensePrefixFuel, hl, hc0, hlast, if_neg hemp]
              apply ih
              · simp only [List.length_take]
                omega
              · simp only [List.length_take]
                omega
          · rw [getMFSP_last_match tr stems c0 cs pre m sense hl hc0 hlast]
            simp only [getMostFrequentSensePrefixFuel, hl, hc0, hlast]
        · rw [getMFSP_first_match tr stems c0 cs pre m sense hl hc0]
          simp only [getMostFrequentSensePrefixFuel, hl, hc0]

/-- C5: `getMostFrequentSensePrefix` terminates on every input.
(1) With fuel exceeding the number of stems, the fuel-indexed copy of the
recursion finishes and agrees with the recursive function — the recursion
depth is bounded by the input length; (2) the empty input returns "no match"
(`None`); (3) the truncation `matchLen - 1` is strictly shorter than the
current input whenever the trie matched; (4) when neither the first-token nor
the last-token coarse POS appears in the matched entry, the result is that of
the query on the truncated input (`None` once it is empty). -/
theorem getMostFrequentSensePrefix_terminates (tr : Trie String (List (Char × String))) :
    (∀ (stems : List String) (coarse_poses : List Char) (fuel : Nat),
        stems.length < fuel →
        getMostFrequentSensePrefixFuel tr fuel stems coarse_poses
          = some (getMostFrequentSensePrefix tr stems coarse_poses)) ∧
    (∀ coarse_poses, getMostFrequentSensePrefix tr [] coarse_poses = none) ∧
    (∀ (stems pre : List String) (pos2sense : List (Char × String)),
        tr.longest stems = some (pre, pos2sense) →
        (stems.take (pre.length - 1)).length < stems.length) ∧
    (∀ (stems : List String) (c0 : Char) (cs : List Char) (pre : List String)
        (pos2sense : List (Char × String)),
        tr.longest stems = some (pre, pos2sense) →
        alGet pos2sense c0 = none →
        alGet pos2sense ((c0 :: cs).getLast (by simp)) = none →
        getMostFrequentSensePrefix tr stems (c0 :: cs)
          = if stems.take (pre.length - 1) = [] then none
            else getMostFrequentSensePrefix tr (stems.take (pre.length - 1))
                ((c0 :: cs).take (pre.length - 1))) := by
  refine ⟨?_, getMostFrequentSensePrefix_nil tr, ?_, getMFSP_rec tr⟩
  · intro stems coarse_poses fuel hf
    exact getMFSPFuel_agrees_aux tr stems.length stems coarse_poses fuel (Nat.le_refl _) hf
  · intro stems pre pos2sense hl
    obtain ⟨hprene, hpfx, -⟩ := Trie.longest_sound stems tr pre pos2sense hl
    have h1 : 1 ≤ pre.length := by
      rcases pre with _ | _
      · exact absurd rfl hprene
      · simp
    have h2 : pre.length ≤ stems.length := hpfx.length_le
    simp only [List.length_take]
    omega

/-- The two-word trie used in the C5 witness. -/
def c5Trie : Trie String (List (Char × String)) :=
  Trie.empty.insert ["a", "b"] [('N', "x")]

theorem getMostFrequentSensePrefix_terminates_witness :
    getMostFrequentSensePrefixFuel c5Trie 3 ["a", "b"] ['Q', 'R']
      = some (getMostFrequentSensePrefix c5Trie ["a", "b"] ['Q', 'R']) ∧
    getMostFrequentSensePrefix c5Trie [] ['Q'] = none ∧
    (List.take ((["a", "b"] : List String).length - 1) ["a", "b"]).length
      < (["a", "b"] : List String).length ∧
    getMostFrequentSensePrefix c5Trie ["a", "b"] ['Q', 'R']
      = getMostFrequentSensePrefix c5Trie ["a"] ['Q'] := by
  have h := getMostFrequentSensePrefix_terminates c5Trie
  refine ⟨h.1 ["a", "b"] ['Q', 'R'] 3 (by decide), h.2.1 ['Q'],
    h.2.2.1 ["a", "b"] ["a", "b"] [('N', "x")] rfl, ?_⟩
  have := h.2.2.2 ["a", "b"] 'Q' ['R'] ["a", "b"] [('N', "x")] rfl rfl rfl
  simpa using this

/-- `extractFirstSensePredictedLabels(sent)` against a loaded trie, over the
per-token stem list and coarse-POS (`tok.pos[0]`) list: a greedy
left-to-right scan with no backtracking; on a match emit `B-sense` for the
first matched word and `I-sense` for each remaining word, advancing by the
match length; otherwise emit `O` and advance by one (`intern` is the
identity). -/
def extractFirstSensePredictedLabels (tr : Trie String (List (Char × String))) :
    (stems : List String) → (coarse_poses : List Char) → List String
  | [], _ => []
  | s :: srest, coarse_poses =>
      match h : getMostFrequentSensePrefix tr (s :: srest) coarse_poses with
      | some (wordParts, sense) =>
          ("B-" ++ sense) ::
            (wordParts.tail.map (fun _ => "I-" ++ sense) ++
              extractFirstSensePredictedLabels tr ((s :: srest).drop wordParts.length)
                (coarse_poses.drop wordParts.length))
      | none => "O" :: extractFirstSensePredictedLabels tr srest coarse_poses.tail
termination_by stems _ => stems.length
decreasing_by
  · obtain ⟨hne, hpre⟩ := getMostFrequentSensePrefix_sound tr (s :: srest) coarse_poses
      wordParts sense h
    have h1 : 1 ≤ wordParts.length := by
      rcases wordParts with _ | _
      · exact absurd rfl hne
      · simp
    simp only [List.length_drop]
    have h2 : wordParts.length ≤ (s :: srest).length := hpre.length_le
    simp only [List.length_cons] at h2 ⊢
    omega
  · simp

theorem extractLabels_nil (tr : Trie String (List (Char × String)))
    (coarse_poses : List Char) : extractFirstSensePredictedLabels tr [] coarse_poses = [] := by
  rw [extractFirstSensePredictedLabels]

theorem extractLabels_cons_some (tr : Trie String (List (Char × String)))
    (s : String) (srest : List String) (coarse_poses : List Char)
    (wordParts : List String) (sense : String)
    (h : getMostFrequentSensePrefix tr (s :: srest) coarse_poses = some (wordParts, sense)) :
    extractFirstSensePredictedLabels tr (s :: srest) coarse_poses
      = ("B-" ++ sense) ::
          (wordParts.tail.map (fun _ => "I-" ++ sense) ++
            extractFirstSensePredictedLabels tr ((s :: srest).drop wordParts.length)
              (coarse_poses.drop wordParts.length)) := by
  rw [extractFirstSensePredictedLabels]
  split
  · rename_i wp sn heq
    rw [h] at heq
    simp only [Option.some.injEq, Prod.mk.injEq] at heq
    obtain ⟨h1, h2⟩ := heq
    subst h1; subst h2
    rfl
  · rename_i heq
    rw [h] at heq
    exact absurd heq (by simp)

theorem extractLabels_cons_none (tr : Trie String (List (Char × String)))
    (s : String) (srest : List String) (coarse_poses : List Char)
    (h : getMostFrequentSensePrefix tr (s :: srest) coarse_poses = none) :
    extractFirstSensePredictedLabels tr (s :: srest) coarse_poses
      = "O" :: extractFirstSensePredictedLabels tr srest coarse_poses.tail := by
  rw [extractFirstSensePredictedLabels]
  split
  · rename_i wp sn heq
    rw [h] at heq
    exact absurd heq (by simp)
  · rfl

/-- The sense suffix of an `I-`-prefixed label, if any. -/
def iSuffix (lbl : String) : Option String :=
  match lbl.data with
  | 'I' :: '-' :: rest => some (String.mk rest)
  | _ => none

/-- BIO well-formedness: every `I-`-suffixed label is immediately preceded by
a `B-` or `I-` label carrying the same sense suffix (`prev` is the label just
before the list, `none` at the start of the sentence). -/
def bioChain : Option String → List String → Bool
  | _, [] => true
  | prev, lbl :: rest =>
      (match iSuffix lbl with
       | some s => prev == some ("B-" ++ s) || prev == some ("I-" ++ s)
       | none => true) &&
      bioChain (some lbl) rest

theorem string_data_append (a b : String) : (a ++ b).data = a.data ++ b.data := rfl

theorem iSuffix_B (s : String) : iSuffix ("B-" ++ s) = none := rfl

theorem iSuffix_I (s : String) : iSuffix ("I-" ++ s) = some s := rfl

theorem iSuffix_O : iSuffix "O" = none := rfl

/-- `bioChain` ignores `prev` when the first label is not `I-`-prefixed. -/
theorem bioChain_indep (res : List String)
    (hhead : ∀ lbl, res.head? = some lbl → iSuffix lbl = none) :
    ∀ p q, bioChain p res = bioChain q res := by
  rcases res with _ | ⟨lbl, rest⟩
  · intro p q; rfl
  · intro p q
    have h := hhead lbl rfl
    rw [bioChain, bioChain, h]

theorem bioChain_block (sense : String) (rec : List String)
    (hrecHead : ∀ lbl, rec.head? = some lbl → iSuffix lbl = none)
    (hrecT : bioChain none rec = true) :
    ∀ (ws : List String) (prevLbl : String),
      (prevLbl = "B-" ++ sense ∨ prevLbl = "I-" ++ sense) →
      bioChain (some prevLbl) (ws.map (fun _ => "I-" ++ sense) ++ rec) = true := by
  intro ws
  induction ws with
  | nil =>
    intro prevLbl _
    rw [List.map_nil, List.nil_append, bioChain_indep rec hrecHead (some prevLbl) none]
    exact hrecT
  | cons w ws ih =>
    intro prevLbl hprev
    rw [List.map_cons, List.cons_append, bioChain, iSuffix_I]
    dsimp only
    have hcheck : (some prevLbl == some ("B-" ++ sense)
        || some prevLbl == some ("I-" ++ sense)) = true := by
      rcases hprev with h | h <;> subst h <;> simp
    rw [hcheck, Bool.true_and]
    exact ih ("I-" ++ sense) (Or.inr rfl)

theorem extractLabels_aux (tr : Trie String (List (Char × String))) :
    ∀ (n : Nat) (stems : List String) (coarse_poses : List Char),
      stems.length ≤ n →
      (extractFirstSensePredictedLabels tr stems coarse_poses).length = stems.length ∧
      (∀ lbl ∈ extractFirstSensePredictedLabels tr stems coarse_poses,
        lbl = "O" ∨ (∃ s, lbl = "B-" ++ s) ∨ (∃ s, lbl = "I-" ++ s)) ∧
      (∀ lbl, (extractFirstSensePredictedLabels tr stems coarse_poses).head? = some lbl →
        iSuffix lbl = none) ∧
      bioChain none (extractFirstSensePredictedLabels tr stems coarse_poses) = true := by
  intro n
  induction n with
  | zero =>
    intro stems coarse_poses hn
    have hnil : stems = [] := List.length_eq_zero.mp (Nat.le_zero.mp hn)
    subst hnil
    rw [extractLabels_nil]
    exact ⟨rfl, by simp, by simp, rfl⟩
  | succ n ih =>
    intro stems coarse_poses hn
    rcases stems with _ | ⟨s, srest⟩
    · rw [extractLabels_nil]
      exact ⟨rfl, by simp, by simp, rfl⟩
    · rcases hm : getMostFrequentSensePrefix tr (s :: srest) coarse_poses
        with _ | ⟨wordParts, sense⟩
      · -- no match: "O" and advance by one
        rw [extractLabels_cons_none tr s srest coarse_poses hm]
        obtain ⟨ihLen, ihShape, ihHead, ihChain⟩ :=
          ih srest coarse_poses.tail (by simp at hn; omega)
        refine ⟨?_, ?_, ?_, ?_⟩
        · simp [ihLen]
        · intro lbl hlbl
          rcases List.mem_cons.mp hlbl with h | h
          · exact Or.inl h
          · exact ihShape lbl h
        · intro lbl hlbl
          simp only [List.head?_cons, Option.some.injEq] at hlbl
          subst hlbl
          exact iSuffix_O
        · rw [bioChain, iSuffix_O, Bool.true_and,
            bioChain_indep _ ihHead (some "O") none]
          exact ihChain
      · -- match: B- and I- labels, advance by the match length
        obtain ⟨hne, hpre⟩ :=
          getMostFrequentSensePrefix_sound tr (s :: srest) coarse_poses wordParts sense hm
        have h1 : 1 ≤ wordParts.length := by
          rcases wordParts with _ | _
          · exact absurd rfl hne
          · simp
        have h2 : wordParts.length ≤ (s :: srest).length := hpre.length_le
        rw [extractLabels_cons_some tr s srest coarse_poses wordParts sense hm]
        obtain ⟨ihLen, ihShape, ihHead, ihChain⟩ :=
          ih ((s :: srest).drop wordParts.length) (coarse_poses.drop wordParts.length)
            (by simp only [List.length_drop]; simp at hn h2 ⊢; omega)
        refine ⟨?_, ?_, ?_, ?_⟩
        · simp only [List.length_cons, List.length_append, List.length_map, List.length_tail,
            ihLen, List.length_drop]
          simp at h2 ⊢
          omega
        · intro lbl hlbl
          rcases List.mem_cons.mp hlbl with h | h
          · exact Or.inr (Or.inl ⟨sense, h⟩)
          · rcases List.mem_append.mp h with h | h
            · obtain ⟨-, -, hlbl'⟩ := List.mem_map.mp h
              exact Or.inr (Or.inr ⟨sense, hlbl'.symm⟩)
            · exact ihShape lbl h
        · intro lbl hlbl
          simp only [List.head?_cons, Option.some.injEq] at hlbl
          subst hlbl
          exact iSuffix_B sense
        · rw [bioChain, iSuffix_B, Bool.true_and]
          exact bioChain_block sense _ ihHead ihChain wordParts.tail ("B-" ++ sense)
            (Or.inl rfl)

/-- C4: over a sentence of `N` tokens (equal-length stem and coarse-POS
lists), `extractFirstSensePredictedLabels` returns exactly `N` labels, each
of which is `O` or carries a `B-` or `I-` prefix, and every `I-`-prefixed
label is immediately preceded by a `B-` or `I-` label with the same sense
suffix (in particular the first label is never `I-`-prefixed). -/
theorem extractFirstSensePredictedLabels_spec
    (tr : Trie String (List (Char × String))) (stems : List String)
    (coarse_poses : List Char) (hlen : coarse_poses.length = stems.length) :
    (extractFirstSensePredictedLabels tr stems coarse_poses).length = stems.length ∧
    (∀ lbl ∈ extractFirstSensePredictedLabels tr stems coarse_poses,
      lbl = "O" ∨ (∃ s, lbl = "B-" ++ s) ∨ (∃ s, lbl = "I-" ++ s)) ∧
    bioChain none (extractFirstSensePredictedLabels tr stems coarse_poses) = true := by
  obtain ⟨h1, h2, -, h4⟩ := extractLabels_aux tr stems.length stems coarse_poses (Nat.le_refl _)
  exact ⟨h1, h2, h4⟩

/-- The one-phrase trie used in the C4 witness: `("a","b")` is a known phrase
whose entry covers coarse POS `Q`. -/
def c4Trie : Trie String (List (Char × String)) :=
  Trie.empty.insert ["a", "b"] [('Q', "x")]

theorem extractFirstSensePredictedLabels_spec_witness :
    extractFirstSensePredictedLabels c4Trie ["a", "b", "c"] ['Q', 'R', 'S']
      = ["B-x", "I-x", "O"] ∧
    (extractFirstSensePredictedLabels c4Trie ["a", "b", "c"] ['Q', 'R', 'S']).length = 3 ∧
    bioChain none (extractFirstSensePredictedLabels c4Trie ["a", "b", "c"] ['Q', 'R', 'S'])
      = true := by
  have h := extractFirstSensePredictedLabels_spec c4Trie ["a", "b", "c"] ['Q', 'R', 'S'] rfl
  have hm1 : getMostFrequentSensePrefix c4Trie ["a", "b", "c"] ['Q', 'R', 'S']
      = some (["a", "b"], "x") :=
    getMFSP_first_match c4Trie ["a", "b", "c"] 'Q' ['R', 'S'] ["a", "b"] [('Q', "x")] "x" rfl rfl
  have hm2 : getMostFrequentSensePrefix c4Trie ["c"] ['S'] = none :=
    getMFSP_of_longest_none c4Trie ["c"] ['S'] rfl
  have he : extractFirstSensePredictedLabels c4Trie ["a", "b", "c"] ['Q', 'R', 'S']
      = ["B-x", "I-x", "O"] := by
    rw [extractLabels_cons_some c4Trie "a" ["b", "c"] ['Q', 'R', 'S'] ["a", "b"] "x" hm1]
    have hdrop : extractFirstSensePredictedLabels c4Trie
        ((["a", "b", "c"] : List String).drop (["a", "b"] : List String).length)
        ((['Q', 'R', 'S'] : List Char).drop (["a", "b"] : List String).length)
        = extractFirstSensePredictedLabels c4Trie ["c"] ['S'] := rfl
    rw [hdrop, extractLabels_cons_none c4Trie "c" [] ['S'] hm2, extractLabels_nil]
    rfl
  exact ⟨he, h.1, h.2.2⟩
